import Mathlib

/-!
Verification of the pyrin handler-registry and package-loading core.

The hashing-manager registry is embedded directly from
src/pyrin/security/hashing/manager.py.  The validator manager and the
dependency-ordered package loader are not present in the source tree
(only their service delegations and package declarations are), so they
are modelled from the specification, as marked on each definition.
-/

namespace Pyrin

/-- A Python runtime value, as far as the registry code inspects one:
the `replace` option may be any object, and `replace is not True` is an
identity test that only the boolean `True` passes. -/
inductive PyVal where
  | bool (b : Bool)
  | int (n : Int)
  | str (s : String)
  | pynone
deriving DecidableEq, Repr

/-- Python's identity test `x is True`: only the boolean True passes. -/
def pyIsTrue (v : PyVal) : Bool :=
  match v with
  | PyVal.bool true => true
  | _ => false

/-- Characters Python's str.strip removes by default. -/
def isPyWhitespace (c : Char) : Bool :=
  c = ' ' || c = '\t' || c = '\n' || c = '\r' || c = '\x0b' || c = '\x0c'

/-- Python's str.strip(): drop leading and trailing whitespace. -/
def pyStrip (s : String) : String :=
  String.mk (((s.data.dropWhile isPyWhitespace).reverse.dropWhile isPyWhitespace).reverse)

/-- Lookup in a dict modelled as an association list (pyrin's Context is a
dict subclass); first matching key wins, keys are kept unique by ctxSet. -/
def ctxGet {κ : Type} [DecidableEq κ] {α : Type} : List (κ × α) → κ → Option α
  | [], _ => Option.none
  | (k', v') :: rest, k => if k' = k then some v' else ctxGet rest k

/-- Dict assignment d[k] = v: replace in place when the key exists,
append otherwise (Python dicts keep the original position on overwrite). -/
def ctxSet {κ : Type} [DecidableEq κ] {α : Type} : List (κ × α) → κ → α → List (κ × α)
  | [], k, v => [(k, v)]
  | (k', v') :: rest, k, v =>
      if k' = k then (k, v) :: rest else (k', v') :: ctxSet rest k v

theorem ctxGet_ctxSet_self {κ : Type} [DecidableEq κ] {α : Type}
    (l : List (κ × α)) (k : κ) (v : α) : ctxGet (ctxSet l k v) k = some v := by
  induction l with
  | nil => simp [ctxSet, ctxGet]
  | cons hd tl ih =>
      obtain ⟨k', v'⟩ := hd
      by_cases hk : k' = k
      · simp [ctxSet, hk, ctxGet]
      · simp [ctxSet, hk, ctxGet, ih]

theorem ctxGet_ctxSet_ne {κ : Type} [DecidableEq κ] {α : Type}
    (l : List (κ × α)) (k n : κ) (v : α) (hne : n ≠ k) :
    ctxGet (ctxSet l k v) n = ctxGet l n := by
  induction l with
  | nil => simp [ctxSet, ctxGet, Ne.symm hne]
  | cons hd tl ih =>
      obtain ⟨k', v'⟩ := hd
      by_cases hk : k' = k
      · subst hk
        simp [ctxSet, ctxGet, Ne.symm hne]
      · simp [ctxSet, hk, ctxGet, ih]

/-- A hashing handler instance as the manager inspects it:
whether it is an instance of HashingBase, what get_name() returns
(possibly None), and an identity distinguishing instances. -/
structure HashingHandler where
  isHashingBase : Bool
  name : Option String
  hid : Nat
deriving DecidableEq, Repr

/-- The errors of pyrin.security.hashing: InvalidHashingHandlerTypeError,
InvalidHashingHandlerNameError, DuplicatedHashingHandlerError,
HashingHandlerNotFoundError. -/
inductive HashingError where
  | invalidHandlerType
  | invalidHandlerName
  | duplicatedHandler
  | handlerNotFound
deriving DecidableEq, Repr

/-- The manager's handler store: name to handler instance. -/
abbrev HashingRegistry := List (String × HashingHandler)

/-- HashingManager.register_hashing_handler from
src/pyrin/security/hashing/manager.py.  Returns the post-call registry
paired with the raised error, if any; every raise in the source happens
before the dict assignment, so the registry passed back on an error path
is the input one. -/
def register_hashing_handler (handlers : HashingRegistry)
    (inst : HashingHandler) (replaceOpt : Option PyVal) :
    HashingRegistry × Option HashingError :=
  if inst.isHashingBase = false then
    (handlers, some HashingError.invalidHandlerType)
  else
    match inst.name with
    | Option.none => (handlers, some HashingError.invalidHandlerName)
    | some nm =>
        if (pyStrip nm).length = 0 then
          (handlers, some HashingError.invalidHandlerName)
        else if (ctxGet handlers nm).isSome
            && !(pyIsTrue (replaceOpt.getD (PyVal.bool false))) then
          (handlers, some HashingError.duplicatedHandler)
        else
          (ctxSet handlers nm inst, Option.none)

/-- HashingManager._get_hashing_handler from
src/pyrin/security/hashing/manager.py: raise HashingHandlerNotFoundError
when the name is absent, return the stored handler otherwise. -/
def get_hashing_handler (handlers : HashingRegistry) (name : String) :
    Except HashingError HashingHandler :=
  match ctxGet handlers name with
  | Option.none => Except.error HashingError.handlerNotFound
  | some h => Except.ok h

/-- C1: for every registry and handler whose name is already registered,
registering with replace unset or False raises the duplicated-handler
error, while registering with replace=True succeeds and a subsequent
lookup of that name returns the newly registered instance. -/
theorem register_duplicate_then_replace (handlers : HashingRegistry)
    (old neu : HashingHandler) (nm : String)
    (hbase : neu.isHashingBase = true) (hname : neu.name = some nm)
    (hvalid : (pyStrip nm).length ≠ 0)
    (hreg : ctxGet handlers nm = some old) :
    (∀ replaceOpt, replaceOpt = Option.none ∨ replaceOpt = some (PyVal.bool false) →
       register_hashing_handler handlers neu replaceOpt =
         (handlers, some HashingError.duplicatedHandler)) ∧
    ((register_hashing_handler handlers neu (some (PyVal.bool true))).2 = Option.none ∧
      get_hashing_handler
          (register_hashing_handler handlers neu (some (PyVal.bool true))).1 nm =
        Except.ok neu) := by
  refine ⟨?_, ?_, ?_⟩
  · rintro replaceOpt (rfl | rfl) <;>
      simp [register_hashing_handler, hbase, hname, hvalid, hreg, pyIsTrue]
  · simp [register_hashing_handler, hbase, hname, hvalid, hreg, pyIsTrue]
  · simp [register_hashing_handler, hbase, hname, hvalid, hreg, pyIsTrue,
      get_hashing_handler, ctxGet_ctxSet_self]

theorem register_duplicate_then_replace_witness :
    register_hashing_handler [("sha1", ⟨true, some "sha1", 0⟩)]
        ⟨true, some "sha1", 1⟩ Option.none =
      ([("sha1", ⟨true, some "sha1", 0⟩)], some HashingError.duplicatedHandler) ∧
    get_hashing_handler
        (register_hashing_handler [("sha1", ⟨true, some "sha1", 0⟩)]
          ⟨true, some "sha1", 1⟩ (some (PyVal.bool true))).1 "sha1" =
      Except.ok ⟨true, some "sha1", 1⟩ := by
  have h := register_duplicate_then_replace [("sha1", ⟨true, some "sha1", 0⟩)]
      ⟨true, some "sha1", 0⟩ ⟨true, some "sha1", 1⟩ "sha1"
      (by decide) (by decide) (by decide) (by decide)
  exact ⟨h.1 Option.none (Or.inl rfl), h.2.2⟩

/-- C4: lookup raises the handler-not-found error exactly when the name
is absent from the registry; otherwise it returns the registered
handler, never a default. -/
theorem get_handler_not_found_iff (handlers : HashingRegistry) (name : String) :
    (get_hashing_handler handlers name = Except.error HashingError.handlerNotFound ↔
      ctxGet handlers name = Option.none) ∧
    (∀ h, ctxGet handlers name = some h →
      get_hashing_handler handlers name = Except.ok h) := by
  constructor
  · unfold get_hashing_handler
    cases hget : ctxGet handlers name <;> simp
  · intro h hh
    unfold get_hashing_handler
    rw [hh]

theorem get_handler_not_found_iff_witness :
    get_hashing_handler [("sha1", ⟨true, some "sha1", 0⟩)] "sha1" =
      Except.ok ⟨true, some "sha1", 0⟩ :=
  (get_handler_not_found_iff [("sha1", ⟨true, some "sha1", 0⟩)] "sha1").2
    ⟨true, some "sha1", 0⟩ (by decide)

/-- C8: registration rejects a non-HashingBase instance with the
invalid-type error, and rejects a None, empty or whitespace-only name
with the invalid-name error; the type check runs before the name check,
so a handler failing both gets the invalid-type error. -/
theorem register_type_check_before_name_check (handlers : HashingRegistry)
    (inst : HashingHandler) (replaceOpt : Option PyVal) :
    (inst.isHashingBase = false →
       register_hashing_handler handlers inst replaceOpt =
         (handlers, some HashingError.invalidHandlerType)) ∧
    (inst.isHashingBase = true →
       (inst.name = Option.none ∨
         ∃ nm, inst.name = some nm ∧ (pyStrip nm).length = 0) →
       register_hashing_handler handlers inst replaceOpt =
         (handlers, some HashingError.invalidHandlerName)) := by
  constructor
  · intro hb
    simp [register_hashing_handler, hb]
  · intro hb hn
    rcases hn with hn | ⟨nm, hn, hws⟩
    · simp [register_hashing_handler, hb, hn]
    · simp [register_hashing_handler, hb, hn, hws]

theorem register_type_check_before_name_check_witness :
    register_hashing_handler [] ⟨false, some "  ", 0⟩ Option.none =
      ([], some HashingError.invalidHandlerType) ∧
    register_hashing_handler [] ⟨true, some "  ", 0⟩ Option.none =
      ([], some HashingError.invalidHandlerName) :=
  ⟨(register_type_check_before_name_check [] ⟨false, some "  ", 0⟩ Option.none).1 rfl,
   (register_type_check_before_name_check [] ⟨true, some "  ", 0⟩ Option.none).2 rfl
     (Or.inr ⟨"  ", rfl, by decide⟩)⟩

/-- C9: registration is atomic: when it raises any error the registry is
exactly the one before the call; when it succeeds, the entry keyed by
the new handler's name now maps to it and every other entry is
unchanged. -/
theorem register_frame (handlers : HashingRegistry) (inst : HashingHandler)
    (replaceOpt : Option PyVal) :
    (∀ e, (register_hashing_handler handlers inst replaceOpt).2 = some e →
       (register_hashing_handler handlers inst replaceOpt).1 = handlers) ∧
    ((register_hashing_handler handlers inst replaceOpt).2 = Option.none →
       ∃ nm, inst.name = some nm ∧
         ctxGet (register_hashing_handler handlers inst replaceOpt).1 nm = some inst ∧
         ∀ n, n ≠ nm →
           ctxGet (register_hashing_handler handlers inst replaceOpt).1 n =
             ctxGet handlers n) := by
  by_cases hb : inst.isHashingBase = false
  · constructor
    · intro e _
      simp [register_hashing_handler, hb]
    · intro hnone
      simp [register_hashing_handler, hb] at hnone
  · cases hname : inst.name with
    | none =>
        constructor
        · intro e _
          simp [register_hashing_handler, hb, hname]
        · intro hnone
          simp [register_hashing_handler, hb, hname] at hnone
    | some nm =>
        by_cases hws : (pyStrip nm).length = 0
        · constructor
          · intro e _
            simp [register_hashing_handler, hb, hname, hws]
          · intro hnone
            simp [register_hashing_handler, hb, hname, hws] at hnone
        · by_cases hdup : ((ctxGet handlers nm).isSome
              && !(pyIsTrue (replaceOpt.getD (PyVal.bool false)))) = true
          · constructor
            · intro e _
              simp [register_hashing_handler, hb, hname, hws, hdup]
            · intro hnone
              simp [register_hashing_handler, hb, hname, hws, hdup] at hnone
          · constructor
            · intro e he
              simp [register_hashing_handler, hb, hname, hws, hdup] at he
            · intro _
              refine ⟨nm, rfl, ?_, ?_⟩
              · simp [register_hashing_handler, hb, hname, hws, hdup,
                  ctxGet_ctxSet_self]
              · intro n hn
                simp [register_hashing_handler, hb, hname, hws, hdup,
                  ctxGet_ctxSet_ne handlers nm n inst hn]

theorem register_frame_witness :
    ∃ nm, (⟨true, some "md5", 3⟩ : HashingHandler).name = some nm ∧
      ctxGet (register_hashing_handler [("x", ⟨true, some "x", 9⟩)]
          ⟨true, some "md5", 3⟩ Option.none).1 nm = some ⟨true, some "md5", 3⟩ ∧
      ∀ n, n ≠ nm →
        ctxGet (register_hashing_handler [("x", ⟨true, some "x", 9⟩)]
            ⟨true, some "md5", 3⟩ Option.none).1 n =
          ctxGet [("x", ⟨true, some "x", 9⟩)] n :=
  (register_frame [("x", ⟨true, some "x", 9⟩)] ⟨true, some "md5", 3⟩ Option.none).2
    (by decide)

/-- C10: with a duplicate name, replacement happens only when the
replace option is identically the boolean True; any other supplied
value, including truthy non-booleans, still raises the
duplicated-handler error, because the source tests the option with
identity against True. -/
theorem register_replace_requires_identical_true (handlers : HashingRegistry)
    (inst : HashingHandler) (nm : String) (replaceOpt : Option PyVal)
    (hbase : inst.isHashingBase = true) (hname : inst.name = some nm)
    (hvalid : (pyStrip nm).length ≠ 0)
    (hdup : (ctxGet handlers nm).isSome = true)
    (hrep : ∀ v, replaceOpt = some v → v ≠ PyVal.bool true) :
    register_hashing_handler handlers inst replaceOpt =
      (handlers, some HashingError.duplicatedHandler) := by
  have hpy : pyIsTrue (replaceOpt.getD (PyVal.bool false)) = false := by
    cases replaceOpt with
    | none => rfl
    | some v =>
        have hvne := hrep v rfl
        cases v with
        | bool b =>
            cases b with
            | true => exact absurd rfl hvne
            | false => rfl
        | int n => rfl
        | str s => rfl
        | pynone => rfl
  simp [register_hashing_handler, hbase, hname, hvalid, hdup, hpy]

theorem register_replace_requires_identical_true_witness :
    register_hashing_handler [("sha2", ⟨true, some "sha2", 0⟩)]
        ⟨true, some "sha2", 1⟩ (some (PyVal.int 1)) =
      ([("sha2", ⟨true, some "sha2", 0⟩)], some HashingError.duplicatedHandler) :=
  register_replace_requires_identical_true [("sha2", ⟨true, some "sha2", 0⟩)]
    ⟨true, some "sha2", 1⟩ "sha2" (some (PyVal.int 1))
    (by decide) (by decide) (by decide) (by decide)
    (by intro v hv; cases hv; decide)

/-- A validator handler: a name and a check that returns None for a
valid value or an error message for an invalid one. -/
structure Validator where
  name : String
  check : PyVal → Option String

/-- Modelled from the spec: the ValidatorManager's store (its manager
module is absent from the source tree; only the delegating service
functions are present).  Keys are composite (domain, name) pairs, the
domain being a string tag. -/
abbrev ValidatorRegistry := List ((String × String) × Validator)

/-- Modelled from the spec: lookup of the validator registered under a
(domain, name) composite key. -/
def lookupValidator (reg : ValidatorRegistry) (domain name : String) :
    Option Validator :=
  ctxGet reg (domain, name)

/-- Modelled from the spec: get_domain_validators returns the mapping of
name to handler for every validator registered under the given domain;
an unknown domain yields the empty mapping (the return type rules out an
error or a None result). -/
def get_domain_validators (reg : ValidatorRegistry) (domain : String) :
    List (String × Validator) :=
  reg.filterMap (fun e => if e.1.1 = domain then some (e.1.2, e.2) else Option.none)

/-- Outcome of validate_field: the validator-not-found error, the
no-validator-found indicator (returned, not raised), a validation error
with a message, or success. -/
inductive FieldOutcome where
  | validatorNotFoundError
  | noValidator
  | validationError (msg : String)
  | valid
deriving DecidableEq, Repr

/-- Modelled from the spec: validate_field looks up the (domain, name)
validator; if absent it raises ValidatorNotFoundError when force is
true and returns the not-found indicator when force is false; if found
it delegates validation to the handler. -/
def validate_field (reg : ValidatorRegistry) (domain name : String)
    (value : PyVal) (force : Bool) : FieldOutcome :=
  match lookupValidator reg domain name with
  | Option.none =>
      if force then FieldOutcome.validatorNotFoundError else FieldOutcome.noValidator
  | some v =>
      match v.check value with
      | some msg => FieldOutcome.validationError msg
      | Option.none => FieldOutcome.valid

/-- Outcome of validate_dict: a validator-not-found error for some key,
one cumulative validation error carrying a field-to-message map, or
success with the mapping of keys for which no validator exists. -/
inductive DictOutcome where
  | validatorNotFoundError (key : String)
  | validationError (errors : List (String × String))
  | ok (notFound : List (String × PyVal))
deriving DecidableEq, Repr

/-- Modelled from the spec: the traversal inside validate_dict.  Each
key is validated with its validator; lazily-collected failures are
raised at the end as one cumulative error, while with lazyOpt false the
first failure is raised alone (fail fast). -/
def validateDictLoop (reg : ValidatorRegistry) (domain : String)
    (force lazyOpt : Bool) :
    List (String × PyVal) → List (String × PyVal) → List (String × String) →
      DictOutcome
  | [], notFound, errors =>
      if errors.isEmpty then DictOutcome.ok notFound.reverse
      else DictOutcome.validationError errors.reverse
  | (k, v) :: rest, notFound, errors =>
      match lookupValidator reg domain k with
      | Option.none =>
          if force then DictOutcome.validatorNotFoundError k
          else validateDictLoop reg domain force lazyOpt rest ((k, v) :: notFound) errors
      | some val =>
          match val.check v with
          | Option.none => validateDictLoop reg domain force lazyOpt rest notFound errors
          | some msg =>
              if lazyOpt then
                validateDictLoop reg domain force lazyOpt rest notFound ((k, msg) :: errors)
              else DictOutcome.validationError [(k, msg)]

/-- Modelled from the spec: validate_dict validates every value of the
dict with the validator matching its key. -/
def validate_dict (reg : ValidatorRegistry) (domain : String)
    (data : List (String × PyVal)) (force lazyOpt : Bool) : DictOutcome :=
  validateDictLoop reg domain force lazyOpt data [] []

/-- The invalid entries of a dict: for each key holding a validator
whose check fails, the key paired with the failure message. -/
def invalidEntries (reg : ValidatorRegistry) (domain : String)
    (data : List (String × PyVal)) : List (String × String) :=
  data.filterMap (fun kv =>
    match lookupValidator reg domain kv.1 with
    | Option.none => Option.none
    | some val => (val.check kv.2).map (fun msg => (kv.1, msg)))

theorem validateDictLoop_lazy_error (reg : ValidatorRegistry) (domain : String)
    (force : Bool) (data : List (String × PyVal)) :
    ∀ notFound errors,
      (force = true → ∀ kv ∈ data, lookupValidator reg domain kv.1 ≠ Option.none) →
      errors.reverse ++ invalidEntries reg domain data ≠ [] →
      validateDictLoop reg domain force true data notFound errors =
        DictOutcome.validationError (errors.reverse ++ invalidEntries reg domain data) := by
  induction data with
  | nil =>
      intro notFound errors _ hne
      have herr : ¬ errors.isEmpty := by
        intro hemp
        rw [List.isEmpty_iff] at hemp
        subst hemp
        simp [invalidEntries] at hne
      simp [validateDictLoop, herr, invalidEntries]
  | cons kv rest ih =>
      intro notFound errors hforce hne
      obtain ⟨k, v⟩ := kv
      cases hlook : lookupValidator reg domain k with
      | none =>
          have hf : force = false := by
            cases hfv : force
            · rfl
            · exact absurd hlook (hforce hfv (k, v) (List.mem_cons_self _ _))
          subst hf
          have hinv : invalidEntries reg domain ((k, v) :: rest) =
              invalidEntries reg domain rest := by
            simp [invalidEntries, hlook]
          rw [hinv] at hne ⊢
          have := ih ((k, v) :: notFound) errors
            (fun hfv => absurd hfv (by simp)) hne
          simpa [validateDictLoop, hlook] using this
      | some val =>
          have hforce' : force = true →
              ∀ kv ∈ rest, lookupValidator reg domain kv.1 ≠ Option.none :=
            fun hfv kv hkv => hforce hfv kv (List.mem_cons_of_mem _ hkv)
          cases hchk : val.check v with
          | none =>
              have hinv : invalidEntries reg domain ((k, v) :: rest) =
                  invalidEntries reg domain rest := by
                simp [invalidEntries, hlook, hchk]
              rw [hinv] at hne ⊢
              have := ih notFound errors hforce' hne
              simpa [validateDictLoop, hlook, hchk] using this
          | some msg =>
              have hinv : invalidEntries reg domain ((k, v) :: rest) =
                  (k, msg) :: invalidEntries reg domain rest := by
                simp [invalidEntries, hlook, hchk]
              rw [hinv]
              have hassoc : errors.reverse ++ (k, msg) :: invalidEntries reg domain rest =
                  ((k, msg) :: errors).reverse ++ invalidEntries reg domain rest := by
                simp
              rw [hassoc]
              have := ih notFound ((k, msg) :: errors) hforce' (by simp)
              simpa [validateDictLoop, hlook, hchk] using this

/-- A concrete validator for witnesses: accepts positive ints. -/
def ageValidator : Validator :=
  ⟨"age", fun v =>
    match v with
    | PyVal.int n => if 0 < n then Option.none else some "must be positive"
    | _ => some "must be an integer"⟩

/-- A concrete validator for witnesses: accepts nonempty strings. -/
def labelValidator : Validator :=
  ⟨"label", fun v =>
    match v with
    | PyVal.str s => if s.length = 0 then some "must not be empty" else Option.none
    | _ => some "must be a string"⟩

/-- C5: get_domain_validators returns the empty mapping (its return type
already rules out an error or a None result) for a domain with no
registrations, and for a registered domain the mapping holds every
handler registered under it. -/
theorem get_domain_validators_empty_or_all (reg : ValidatorRegistry)
    (domain : String) :
    ((∀ e ∈ reg, e.1.1 ≠ domain) → get_domain_validators reg domain = []) ∧
    (∀ nm v, ((domain, nm), v) ∈ reg →
      (nm, v) ∈ get_domain_validators reg domain) := by
  constructor
  · intro habs
    unfold get_domain_validators
    rw [List.filterMap_eq_nil_iff]
    intro e he
    simp [habs e he]
  · intro nm v hm
    unfold get_domain_validators
    rw [List.mem_filterMap]
    exact ⟨((domain, nm), v), hm, by simp⟩

theorem get_domain_validators_empty_or_all_witness :
    get_domain_validators [(("user", "age"), ageValidator)] "acct" = [] ∧
    ("age", ageValidator) ∈
      get_domain_validators [(("user", "age"), ageValidator)] "user" :=
  ⟨(get_domain_validators_empty_or_all [(("user", "age"), ageValidator)] "acct").1
     (by intro e he; simp at he; subst he; decide),
   (get_domain_validators_empty_or_all [(("user", "age"), ageValidator)] "user").2
     "age" ageValidator (by simp)⟩

/-- C6: when no validator is registered under (domain, name),
validate_field raises the validator-not-found error if force is true
and returns the not-found indicator without raising if force is false;
when one is found, validation is delegated to it. -/
theorem validate_field_force_and_delegate (reg : ValidatorRegistry)
    (domain name : String) (value : PyVal) (force : Bool) :
    (lookupValidator reg domain name = Option.none → force = true →
       validate_field reg domain name value force =
         FieldOutcome.validatorNotFoundError) ∧
    (lookupValidator reg domain name = Option.none → force = false →
       validate_field reg domain name value force = FieldOutcome.noValidator) ∧
    (∀ v, lookupValidator reg domain name = some v →
       validate_field reg domain name value force =
         match v.check value with
         | some msg => FieldOutcome.validationError msg
         | Option.none => FieldOutcome.valid) := by
  refine ⟨?_, ?_, ?_⟩
  · intro habs hf
    simp [validate_field, habs, hf]
  · intro habs hf
    simp [validate_field, habs, hf]
  · intro v hv
    simp [validate_field, hv]

theorem validate_field_force_and_delegate_witness :
    validate_field [] "user" "age" (PyVal.int 3) true =
      FieldOutcome.validatorNotFoundError ∧
    validate_field [] "user" "age" (PyVal.int 3) false =
      FieldOutcome.noValidator ∧
    validate_field [(("user", "age"), ageValidator)] "user" "age"
        (PyVal.int 0) true = FieldOutcome.validationError "must be positive" :=
  ⟨(validate_field_force_and_delegate [] "user" "age" (PyVal.int 3) true).1 rfl rfl,
   (validate_field_force_and_delegate [] "user" "age" (PyVal.int 3) false).2.1 rfl rfl,
   ((validate_field_force_and_delegate [(("user", "age"), ageValidator)] "user"
       "age" (PyVal.int 0) true).2.2 ageValidator rfl).trans rfl⟩

/-- C7: on a dict with two (or more) invalid fields, validate_dict with
lazy=true yields exactly one cumulative validation error whose
field-to-message map holds an entry for every invalid field, instead of
failing fast on the first one. -/
theorem validate_dict_lazy_aggregates (reg : ValidatorRegistry) (domain : String)
    (data : List (String × PyVal)) (force : Bool)
    (hforce : force = true → ∀ kv ∈ data, lookupValidator reg domain kv.1 ≠ Option.none)
    (k1 k2 : String) (v1 v2 : PyVal) (val1 val2 : Validator) (m1 m2 : String)
    (h1 : (k1, v1) ∈ data) (h2 : (k2, v2) ∈ data) (_hkne : k1 ≠ k2)
    (hl1 : lookupValidator reg domain k1 = some val1) (hc1 : val1.check v1 = some m1)
    (hl2 : lookupValidator reg domain k2 = some val2) (hc2 : val2.check v2 = some m2) :
    ∃ E, validate_dict reg domain data force true = DictOutcome.validationError E ∧
      (k1, m1) ∈ E ∧ (k2, m2) ∈ E ∧
      (∀ k value val msg, (k, value) ∈ data →
        lookupValidator reg domain k = some val → val.check value = some msg →
        (k, msg) ∈ E) := by
  have hmem : ∀ k value val msg, (k, value) ∈ data →
      lookupValidator reg domain k = some val → val.check value = some msg →
      (k, msg) ∈ invalidEntries reg domain data := by
    intro k value val msg hkv hl hc
    unfold invalidEntries
    rw [List.mem_filterMap]
    exact ⟨(k, value), hkv, by simp [hl, hc]⟩
  have h1' := hmem k1 v1 val1 m1 h1 hl1 hc1
  have hne : invalidEntries reg domain data ≠ [] := by
    intro hemp
    rw [hemp] at h1'
    simp at h1'
  have hrun := validateDictLoop_lazy_error reg domain force data [] [] hforce
    (by simpa using hne)
  refine ⟨invalidEntries reg domain data, ?_, h1',
    hmem k2 v2 val2 m2 h2 hl2 hc2, hmem⟩
  simpa [validate_dict] using hrun

theorem validate_dict_lazy_aggregates_witness :
    ∃ E, validate_dict
        [(("user", "age"), ageValidator), (("user", "label"), labelValidator)]
        "user" [("age", PyVal.int 0), ("label", PyVal.str "")] false true =
        DictOutcome.validationError E ∧
      ("age", "must be positive") ∈ E ∧ ("label", "must not be empty") ∈ E := by
  obtain ⟨E, hE, hm1, hm2, _⟩ := validate_dict_lazy_aggregates
    [(("user", "age"), ageValidator), (("user", "label"), labelValidator)]
    "user" [("age", PyVal.int 0), ("label", PyVal.str "")] false
    (by intro h; exact absurd h (by simp))
    "age" "label" (PyVal.int 0) (PyVal.str "") ageValidator labelValidator
    "must be positive" "must not be empty"
    (by simp) (by simp) (by decide) rfl rfl rfl rfl
  exact ⟨E, hE, hm1, hm2⟩

/-- A loadable unit: a package name and its declared dependency names
(the NAME and DEPENDS attributes of Package in
src/pyrin/packaging/context.py). -/
structure PkgUnit where
  name : String
  depends : List String
deriving DecidableEq, Repr

/-- The two reserved packages, loaded implicitly before every other one
and excluded from DEPENDS declarations. -/
def reservedUnits : List String := ["pyrin.application", "pyrin.packaging"]

/-- Modelled from the spec: a unit is ready when all its declared
dependencies are already placed in the output order. -/
def isReady (placed : List String) (u : PkgUnit) : Bool :=
  u.depends.all (fun d => decide (d ∈ placed))

/-- Modelled from the spec: pick the first ready unit in declaration
order (the stable tie-break), returning it with the remaining units. -/
def selectReady (placed : List String) :
    List PkgUnit → Option (PkgUnit × List PkgUnit)
  | [] => Option.none
  | u :: rest =>
      if isReady placed u then some (u, rest)
      else
        match selectReady placed rest with
        | Option.none => Option.none
        | some (v, rest') => some (v, u :: rest')

/-- Modelled from the spec: the loader's resolution loop (the packaging
manager itself is absent from the source tree; only the package
declarations are).  Ready units are selected repeatedly; when none is
ready but unplaced units remain, it fails with the cyclic-dependency
error naming the whole unresolved subset. -/
def topoLoop : Nat → List String → List PkgUnit →
    Except (List String) (List String)
  | _, _, [] => Except.ok []
  | 0, _, u₀ :: rest₀ => Except.error ((u₀ :: rest₀).map PkgUnit.name)
  | fuel + 1, placed, u₀ :: rest₀ =>
      match selectReady placed (u₀ :: rest₀) with
      | Option.none => Except.error ((u₀ :: rest₀).map PkgUnit.name)
      | some (u, rest) =>
          match topoLoop fuel (placed ++ [u.name]) rest with
          | Except.ok order => Except.ok (u.name :: order)
          | Except.error e => Except.error e

/-- Modelled from the spec: the loader's computed order — the two
reserved units first, then the declared units in dependency order. -/
def loadOrder (units : List PkgUnit) : Except (List String) (List String) :=
  match topoLoop units.length reservedUnits units with
  | Except.ok order => Except.ok (reservedUnits ++ order)
  | Except.error e => Except.error e

/-- A callback invocation the loader performs for a unit. -/
inductive LoadEvent where
  | load (n : String)
  | loaded (n : String)
deriving DecidableEq, Repr

/-- Modelled from the spec: after ordering succeeds the loader calls
load and then the loaded notification for each declared unit in order;
on a cyclic-dependency failure it raises before any callback runs. -/
def runLoader (units : List PkgUnit) :
    List LoadEvent × Option (List String) :=
  match topoLoop units.length reservedUnits units with
  | Except.ok order =>
      (order.flatMap (fun n => [LoadEvent.load n, LoadEvent.loaded n]), Option.none)
  | Except.error e => ([], some e)

/-- Acyclicity of the dependency graph: every nonempty subcollection of
the units holds a member all of whose dependencies point outside it. -/
def acyclicUnits (units : List PkgUnit) : Prop :=
  ∀ S ∈ units.sublists, S ≠ [] →
    ∃ u ∈ S, ∀ d ∈ u.depends, d ∉ S.map PkgUnit.name

theorem selectReady_eq_some (placed : List String) :
    ∀ (l : List PkgUnit) (u : PkgUnit) (rest : List PkgUnit),
      selectReady placed l = some (u, rest) →
      ∃ l1 l2, l = l1 ++ u :: l2 ∧ rest = l1 ++ l2 ∧ isReady placed u = true := by
  intro l
  induction l with
  | nil => intro u rest h; simp [selectReady] at h
  | cons a tl ih =>
      intro u rest h
      by_cases ha : isReady placed a
      · rw [selectReady, if_pos ha] at h
        cases h
        exact ⟨[], tl, rfl, rfl, ha⟩
      · rw [selectReady, if_neg ha] at h
        cases hsel : selectReady placed tl with
        | none =>
            rw [hsel] at h
            exact Option.noConfusion h
        | some p =>
            obtain ⟨v, rest'⟩ := p
            rw [hsel] at h
            change some (v, a :: rest') = some (u, rest) at h
            cases h
            obtain ⟨l1, l2, htl, hrest, hready⟩ := ih u rest' hsel
            exact ⟨a :: l1, l2, by simp [htl], by simp [hrest], hready⟩

theorem selectReady_eq_none (placed : List String) :
    ∀ l : List PkgUnit, selectReady placed l = Option.none →
      ∀ u ∈ l, isReady placed u = false := by
  intro l
  induction l with
  | nil => intro _ u hu; cases hu
  | cons a tl ih =>
      intro h u hu
      by_cases ha : isReady placed a
      · rw [selectReady, if_pos ha] at h
        exact Option.noConfusion h
      · rw [selectReady, if_neg ha] at h
        rcases List.mem_cons.mp hu with rfl | hu
        · simpa using ha
        · cases hsel : selectReady placed tl with
          | none => exact ih hsel u hu
          | some p =>
              obtain ⟨v, rest'⟩ := p
              rw [hsel] at h
              change some (v, a :: rest') = Option.none at h
              exact Option.noConfusion h

theorem topoLoop_acyclic (units : List PkgUnit) (hacyc : acyclicUnits units) :
    ∀ (fuel : Nat) (remaining : List PkgUnit) (placed : List String),
      remaining.length ≤ fuel →
      List.Sublist remaining units →
      (remaining.map PkgUnit.name).Nodup →
      (∀ u ∈ remaining, ∀ d ∈ u.depends,
        d ∈ placed ∨ d ∈ remaining.map PkgUnit.name) →
      ∃ order, topoLoop fuel placed remaining = Except.ok order ∧
        List.Perm order (remaining.map PkgUnit.name) ∧
        (∀ l1 nm l2, order = l1 ++ nm :: l2 →
          ∀ u ∈ remaining, u.name = nm →
            ∀ d ∈ u.depends, d ∈ placed ∨ d ∈ l1) := by
  intro fuel
  induction fuel with
  | zero =>
      intro remaining placed hlen _ _ _
      have hnil : remaining = [] := List.length_eq_zero.mp (Nat.le_zero.mp hlen)
      subst hnil
      refine ⟨[], rfl, List.Perm.refl _, ?_⟩
      intro l1 nm l2 hsp
      have hlen0 : (l1 ++ nm :: l2).length = 0 := by rw [← hsp]; rfl
      simp at hlen0
  | succ fuel ih =>
      intro remaining placed hlen hsub hnd hinv
      rcases remaining with _ | ⟨u₀, rest₀⟩
      · refine ⟨[], rfl, List.Perm.refl _, ?_⟩
        intro l1 nm l2 hsp
        have hlen0 : (l1 ++ nm :: l2).length = 0 := by rw [← hsp]; rfl
        simp at hlen0
      · obtain ⟨w, hw, hwdeps⟩ :=
          hacyc (u₀ :: rest₀) (List.mem_sublists.mpr hsub) (by simp)
        have hwready : isReady placed w = true := by
          unfold isReady
          rw [List.all_eq_true]
          intro d hd
          rcases hinv w hw d hd with hp | hn
          · exact decide_eq_true hp
          · exact absurd hn (hwdeps d hd)
        obtain ⟨u, rest, hsel⟩ :
            ∃ u rest, selectReady placed (u₀ :: rest₀) = some (u, rest) := by
          cases hsel : selectReady placed (u₀ :: rest₀) with
          | none =>
              have hfalse := selectReady_eq_none placed (u₀ :: rest₀) hsel w hw
              rw [hwready] at hfalse
              cases hfalse
          | some p =>
              obtain ⟨u, rest⟩ := p
              exact ⟨u, rest, rfl⟩
        obtain ⟨l1, l2, heq, hrest, hready⟩ :=
          selectReady_eq_some placed (u₀ :: rest₀) u rest hsel
        have hperm : List.Perm (u₀ :: rest₀) (u :: rest) := by
          rw [heq, hrest]
          exact List.perm_middle
        have hlen' : rest.length ≤ fuel := by
          have h1 := hperm.length_eq
          simp only [List.length_cons] at h1 hlen
          omega
        have hsubrest : List.Sublist rest units := by
          have h2 : List.Sublist rest (u₀ :: rest₀) := by
            rw [heq, hrest]
            exact List.Sublist.append_left (List.sublist_cons_self u l2) l1
          exact h2.trans hsub
        have hndcons : ((u :: rest).map PkgUnit.name).Nodup :=
          ((hperm.map PkgUnit.name).nodup_iff).mp hnd
        obtain ⟨hu_notmem, hndrest⟩ :
            u.name ∉ rest.map PkgUnit.name ∧ (rest.map PkgUnit.name).Nodup :=
          List.nodup_cons.mp (by simpa using hndcons)
        have hu_mem : u ∈ u₀ :: rest₀ :=
          hperm.symm.subset (List.mem_cons_self u rest)
        have hmemrest : ∀ x ∈ rest, x ∈ u₀ :: rest₀ := fun x hx =>
          hperm.symm.subset (List.mem_cons_of_mem u hx)
        have hinv' : ∀ x ∈ rest, ∀ d ∈ x.depends,
            d ∈ placed ++ [u.name] ∨ d ∈ rest.map PkgUnit.name := by
          intro x hx d hd
          rcases hinv x (hmemrest x hx) d hd with hp | hn
          · exact Or.inl (List.mem_append_left _ hp)
          · have hcons : d ∈ (u :: rest).map PkgUnit.name :=
              (hperm.map PkgUnit.name).subset hn
            rw [List.map_cons] at hcons
            rcases List.mem_cons.mp hcons with rfl | hm
            · exact Or.inl (List.mem_append_right _ (List.mem_singleton.mpr rfl))
            · exact Or.inr hm
        obtain ⟨order', hrun', hperm', hsplit'⟩ :=
          ih rest (placed ++ [u.name]) hlen' hsubrest hndrest hinv'
        have hu_deps : ∀ d ∈ u.depends, d ∈ placed := by
          intro d hd
          exact of_decide_eq_true ((List.all_eq_true.mp hready) d hd)
        refine ⟨u.name :: order', ?_, ?_, ?_⟩
        · simp only [topoLoop, hsel, hrun']
        · have h1 : List.Perm (u.name :: order') (u.name :: rest.map PkgUnit.name) :=
            hperm'.cons u.name
          have h2 : List.Perm ((u :: rest).map PkgUnit.name)
              ((u₀ :: rest₀).map PkgUnit.name) := (hperm.map PkgUnit.name).symm
          rw [List.map_cons] at h2
          exact h1.trans h2
        · intro t1 nm t2 hsp x hx hxnm d hd
          cases t1 with
          | nil =>
              rw [List.nil_append] at hsp
              obtain ⟨hnm, _⟩ : u.name = nm ∧ order' = t2 := by
                injection hsp with ha hb
                exact ⟨ha, hb⟩
              have hxu : x = u :=
                List.inj_on_of_nodup_map hnd hx hu_mem (by rw [hxnm, ← hnm])
              exact Or.inl (hu_deps d (hxu ▸ hd))
          | cons a t1' =>
              rw [List.cons_append] at hsp
              obtain ⟨ha, hb⟩ : u.name = a ∧ order' = t1' ++ nm :: t2 := by
                injection hsp with ha hb
                exact ⟨ha, hb⟩
              by_cases hxu : x = u
              · exact Or.inl (hu_deps d (hxu ▸ hd))
              · have hxrest : x ∈ rest := by
                  rcases List.mem_cons.mp (hperm.subset hx) with hx' | hx'
                  · exact absurd hx' hxu
                  · exact hx'
                rcases hsplit' t1' nm t2 hb x hxrest hxnm d hd with hp | ht
                · rcases List.mem_append.mp hp with hp' | hp'
                  · exact Or.inl hp'
                  · have : d = u.name := List.mem_singleton.mp hp'
                    exact Or.inr (by rw [this, ha]; exact List.mem_cons_self a t1')
                · exact Or.inr (List.mem_cons_of_mem a ht)

/-- C2: for an acyclic dependency graph (distinct names, dependencies
closed over the declared units, none naming a reserved unit), the loader
succeeds with a total order: the two reserved units come first, every
declared unit appears exactly once, every unit appears after all of its
declared dependencies, and running the loader twice yields the identical
order (the tie-break among ready units is declaration order by the
definition of selectReady). -/
theorem loader_acyclic_total_order (units : List PkgUnit)
    (hnd : (units.map PkgUnit.name).Nodup)
    (hclosed : ∀ u ∈ units, ∀ d ∈ u.depends, d ∈ units.map PkgUnit.name)
    (hdisj : ∀ nm ∈ units.map PkgUnit.name, nm ∉ reservedUnits)
    (hacyc : acyclicUnits units) :
    ∃ order, loadOrder units = Except.ok (reservedUnits ++ order) ∧
      List.Perm order (units.map PkgUnit.name) ∧
      (∀ l1 nm l2, order = l1 ++ nm :: l2 →
        ∀ u ∈ units, u.name = nm → ∀ d ∈ u.depends, d ∈ l1) ∧
      loadOrder units = loadOrder units := by
  obtain ⟨order, hrun, hperm, hsplit⟩ :=
    topoLoop_acyclic units hacyc units.length units reservedUnits le_rfl
      (List.Sublist.refl units) hnd
      (fun u hu d hd => Or.inr (hclosed u hu d hd))
  refine ⟨order, ?_, hperm, ?_, rfl⟩
  · unfold loadOrder
    rw [hrun]
  · intro l1 nm l2 hsp u hu hnm d hd
    rcases hsplit l1 nm l2 hsp u hu hnm d hd with hres | hl1
    · exact absurd hres (hdisj d (hclosed u hu d hd))
    · exact hl1

theorem loader_acyclic_total_order_witness :
    ∃ order,
      loadOrder [⟨"db", []⟩, ⟨"api", ["db"]⟩] =
        Except.ok (reservedUnits ++ order) ∧
      List.Perm order ["db", "api"] := by
  obtain ⟨order, h1, h2, _, _⟩ :=
    loader_acyclic_total_order [⟨"db", []⟩, ⟨"api", ["db"]⟩]
      (by decide) (by decide) (by decide)
      (by unfold acyclicUnits; decide)
  exact ⟨order, h1, h2⟩

theorem topoLoop_cyclic (S : List PkgUnit) (hSne : S ≠ [])
    (hcyc : ∀ u ∈ S, ∃ d ∈ u.depends, d ∈ S.map PkgUnit.name) :
    ∀ (fuel : Nat) (remaining : List PkgUnit) (placed : List String),
      (∀ x ∈ S, x ∈ remaining) →
      (remaining.map PkgUnit.name).Nodup →
      (∀ nm ∈ S.map PkgUnit.name, nm ∉ placed) →
      ∃ e, topoLoop fuel placed remaining = Except.error e ∧
        ∀ nm ∈ S.map PkgUnit.name, nm ∈ e := by
  intro fuel
  induction fuel with
  | zero =>
      intro remaining placed hS _ _
      rcases remaining with _ | ⟨u₀, rest₀⟩
      · obtain ⟨s, hs⟩ := List.exists_mem_of_ne_nil S hSne
        exact absurd (hS s hs) (List.not_mem_nil s)
      · refine ⟨(u₀ :: rest₀).map PkgUnit.name, rfl, ?_⟩
        intro nm hnm
        obtain ⟨x, hx, hxnm⟩ := List.mem_map.mp hnm
        exact List.mem_map.mpr ⟨x, hS x hx, hxnm⟩
  | succ fuel ih =>
      intro remaining placed hS hnd hplaced
      rcases remaining with _ | ⟨u₀, rest₀⟩
      · obtain ⟨s, hs⟩ := List.exists_mem_of_ne_nil S hSne
        exact absurd (hS s hs) (List.not_mem_nil s)
      · cases hsel : selectReady placed (u₀ :: rest₀) with
        | none =>
            refine ⟨(u₀ :: rest₀).map PkgUnit.name, by simp only [topoLoop, hsel], ?_⟩
            intro nm hnm
            obtain ⟨x, hx, hxnm⟩ := List.mem_map.mp hnm
            exact List.mem_map.mpr ⟨x, hS x hx, hxnm⟩
        | some p =>
            obtain ⟨u, rest⟩ := p
            obtain ⟨l1, l2, heq, hrest, hready⟩ :=
              selectReady_eq_some placed (u₀ :: rest₀) u rest hsel
            have hperm : List.Perm (u₀ :: rest₀) (u :: rest) := by
              rw [heq, hrest]
              exact List.perm_middle
            have hu_deps : ∀ d ∈ u.depends, d ∈ placed := by
              intro d hd
              exact of_decide_eq_true ((List.all_eq_true.mp hready) d hd)
            have hu_mem : u ∈ u₀ :: rest₀ :=
              hperm.symm.subset (List.mem_cons_self u rest)
            have huS : u ∉ S := by
              intro huS
              obtain ⟨d, hd, hdS⟩ := hcyc u huS
              exact absurd (hu_deps d hd) (hplaced d hdS)
            have hndcons : ((u :: rest).map PkgUnit.name).Nodup :=
              ((hperm.map PkgUnit.name).nodup_iff).mp hnd
            obtain ⟨hu_notmem, hndrest⟩ :
                u.name ∉ rest.map PkgUnit.name ∧ (rest.map PkgUnit.name).Nodup :=
              List.nodup_cons.mp (by simpa using hndcons)
            have hS' : ∀ x ∈ S, x ∈ rest := by
              intro x hx
              rcases List.mem_cons.mp (hperm.subset (hS x hx)) with hx' | hx'
              · exact absurd (hx' ▸ hx) huS
              · exact hx'
            have huname : ∀ nm ∈ S.map PkgUnit.name, nm ≠ u.name := by
              intro nm hnm hnmu
              obtain ⟨x, hx, hxnm⟩ := List.mem_map.mp hnm
              have hxmem : x ∈ u₀ :: rest₀ := hS x hx
              have hxu : x = u :=
                List.inj_on_of_nodup_map hnd hxmem hu_mem (by rw [hxnm, hnmu])
              exact absurd (hxu ▸ hx) huS
            have hplaced' : ∀ nm ∈ S.map PkgUnit.name, nm ∉ placed ++ [u.name] := by
              intro nm hnm hmem
              rcases List.mem_append.mp hmem with hm | hm
              · exact absurd hm (hplaced nm hnm)
              · exact absurd (List.mem_singleton.mp hm) (huname nm hnm)
            obtain ⟨e, herr, hsup⟩ := ih rest (placed ++ [u.name]) hS' hndrest hplaced'
            exact ⟨e, by simp only [topoLoop, hsel, herr], hsup⟩

/-- C3: when the dependency graph contains a cyclic subset (every unit
of a nonempty subset depends on something inside the subset), the loader
fails with the cyclic-dependency error naming at least the whole
unresolved subset, and the load callback is never invoked for any unit
of that subset — its event trace is empty. -/
theorem loader_cycle_fails_without_loading (units S : List PkgUnit)
    (hnd : (units.map PkgUnit.name).Nodup)
    (hdisj : ∀ nm ∈ units.map PkgUnit.name, nm ∉ reservedUnits)
    (hS : ∀ x ∈ S, x ∈ units) (hSne : S ≠ [])
    (hcyc : ∀ u ∈ S, ∃ d ∈ u.depends, d ∈ S.map PkgUnit.name) :
    ∃ e, runLoader units = ([], some e) ∧
      (∀ nm ∈ S.map PkgUnit.name, nm ∈ e) ∧
      ∀ nm ∈ S.map PkgUnit.name, LoadEvent.load nm ∉ (runLoader units).1 := by
  have hplaced : ∀ nm ∈ S.map PkgUnit.name, nm ∉ reservedUnits := by
    intro nm hnm
    exact hdisj nm (List.map_subset PkgUnit.name hS hnm)
  obtain ⟨e, herr, hsup⟩ :=
    topoLoop_cyclic S hSne hcyc units.length units reservedUnits hS hnd hplaced
  have hrl : runLoader units = ([], some e) := by
    unfold runLoader
    rw [herr]
  refine ⟨e, hrl, hsup, ?_⟩
  intro nm _ hmem
  rw [hrl] at hmem
  exact List.not_mem_nil _ hmem

theorem loader_cycle_fails_without_loading_witness :
    ∃ e, runLoader [⟨"a", ["b"]⟩, ⟨"b", ["a"]⟩] = ([], some e) ∧
      "a" ∈ e ∧ "b" ∈ e := by
  obtain ⟨e, h1, h2, _⟩ := loader_cycle_fails_without_loading
    [⟨"a", ["b"]⟩, ⟨"b", ["a"]⟩] [⟨"a", ["b"]⟩, ⟨"b", ["a"]⟩]
    (by decide) (by decide) (by decide) (by decide) (by decide)
  exact ⟨e, h1, h2 "a" (by decide), h2 "b" (by decide)⟩

end Pyrin
